import Mathlib

/-!
# Verification of the Hirshfeld surface fingerprint scripts

A shallow embedding of the algorithmic core of the repository
(`fingerprint_kahan.py`, `fingerprint_heron.py`, `diff_finger.py`,
`sum_abs_diffs.py`) together with proofs and refutations of the
specification claims.

Modelling conventions:
* Python floats are idealised as rationals (`ℚ`); the serialisation
  round-trips through fixed decimal formats are exact in this model.
* A triangle area `0.25 * math.sqrt(R)` is represented by its square
  `(1/16) * R`, which is what the scripts compute before the final
  square root; theorems relate the two through `Real.sqrt`.
* Fallible operations (unhandled `IndexError`, `ZeroDivisionError`,
  conversion errors) are modelled with `Option`/`Except`.
-/

namespace Hirshfeld

/-- One surface triangle as assembled by `Worker.triangle_surfaces`:
its averaged `d_e`, averaged `d_i` and its (squared, see module
comment) surface area. -/
structure Tri where
  de : ℚ
  di : ℚ
  area : ℚ

/-- `length_register.sort()` followed by the relabelling
`Kahan_a = register[2], Kahan_b = register[1], Kahan_c = register[0]`
of `fingerprint_kahan.py` (lines 226-230): the three side lengths in
decreasing order. -/
def sortDesc (x y z : ℚ) : ℚ × ℚ × ℚ :=
  if x ≤ y then
    if y ≤ z then (z, y, x)
    else if x ≤ z then (y, z, x) else (y, x, z)
  else
    if x ≤ z then (z, x, y)
    else if y ≤ z then (x, z, y) else (x, y, z)

/-- The Kahan policy of `fingerprint_kahan.py` (lines 225-242) on the
three side lengths.  `none` is the `continue` branch ("This is not a
valid triangle.").  The returned value is the square of the area
`0.25 * math.sqrt(Kahan_A * Kahan_B * Kahan_C * Kahan_D)`. -/
def kahanAreaSq (x y z : ℚ) : Option ℚ :=
  if (sortDesc x y z).2.2 - ((sortDesc x y z).1 - (sortDesc x y z).2.1) < 0 then none
  else some ((1/16) *
    (((sortDesc x y z).1 + ((sortDesc x y z).2.1 + (sortDesc x y z).2.2)) *
     ((sortDesc x y z).2.2 - ((sortDesc x y z).1 - (sortDesc x y z).2.1)) *
     ((sortDesc x y z).2.2 + ((sortDesc x y z).1 - (sortDesc x y z).2.1)) *
     ((sortDesc x y z).1 + ((sortDesc x y z).2.1 - (sortDesc x y z).2.2))))

/-- The Heron policy of `fingerprint_heron.py` (lines 225-232): the
guard `dist > float(10E-5)` (that is `10⁻⁴`) on each side, then
`s = (a + b + c) * 0.5` and the radicand `s(s-a)(s-b)(s-c)`; the
returned value is the square of `math.sqrt(...)`.  `none` is the
silently skipped (degenerate) branch. -/
def heronAreaSq (a b c : ℚ) : Option ℚ :=
  if 1/10000 < a ∧ 1/10000 < b ∧ 1/10000 < c then
    some (((a + b + c) * (1/2)) * (((a + b + c) * (1/2)) - a) *
          (((a + b + c) * (1/2)) - b) * (((a + b + c) * (1/2)) - c))
  else none

lemma sortDesc_order (x y z : ℚ) :
    (sortDesc x y z).2.1 ≤ (sortDesc x y z).1 ∧
    (sortDesc x y z).2.2 ≤ (sortDesc x y z).2.1 := by
  unfold sortDesc
  split_ifs <;> constructor <;> simp_all <;> linarith

lemma sortDesc_multiset (x y z : ℚ) :
    ({(sortDesc x y z).1, (sortDesc x y z).2.1, (sortDesc x y z).2.2} : Multiset ℚ)
      = {x, y, z} := by
  unfold sortDesc
  split_ifs <;>
    refine Multiset.ext.mpr fun a => ?_ <;>
    simp only [Multiset.insert_eq_cons, Multiset.count_cons, Multiset.count_singleton] <;>
    (try split_ifs) <;> (try omega)

lemma sortDesc_min_nonneg (x y z : ℚ) (hx : 0 ≤ x) (hy : 0 ≤ y) (hz : 0 ≤ z) :
    0 ≤ (sortDesc x y z).2.2 := by
  unfold sortDesc
  split_ifs <;> simpa

/-- C3.  The Kahan policy: side lengths are sorted descending to
`a ≥ b ≥ c`; the triangle is DEGENERATE exactly when `c - (a - b) < 0`
(no minimum-side-length filter); otherwise the area is
`0.25 * √(A*B*C*D)` with `A = a+(b+c)`, `B = c-(a-b)`, `C = c+(a-b)`,
`D = a+(b-c)` — in the model, the squared area `(1/16)*(A*B*C*D)`,
whose square root is exactly `0.25 * √(A*B*C*D)`. -/
theorem kahan_policy_spec (x y z : ℚ) (hx : 0 ≤ x) (hy : 0 ≤ y) (hz : 0 ≤ z)
    (a b c : ℚ) (hs : sortDesc x y z = (a, b, c)) :
    (b ≤ a ∧ c ≤ b) ∧
    ({a, b, c} : Multiset ℚ) = {x, y, z} ∧
    (kahanAreaSq x y z = none ↔ c - (a - b) < 0) ∧
    (∀ q, kahanAreaSq x y z = some q →
      q = (1/16) * ((a + (b + c)) * (c - (a - b)) * (c + (a - b)) * (a + (b - c))) ∧
      Real.sqrt (q : ℝ) = 0.25 * Real.sqrt
        (((a + (b + c)) * (c - (a - b)) * (c + (a - b)) * (a + (b - c)) : ℚ) : ℝ)) := by
  have ha : (sortDesc x y z).1 = a := by rw [hs]
  have hb : (sortDesc x y z).2.1 = b := by rw [hs]
  have hc : (sortDesc x y z).2.2 = c := by rw [hs]
  have horder := sortDesc_order x y z
  rw [ha, hb, hc] at horder
  have hmult := sortDesc_multiset x y z
  rw [ha, hb, hc] at hmult
  have hc0 : 0 ≤ c := by
    have := sortDesc_min_nonneg x y z hx hy hz
    rwa [hc] at this
  refine ⟨horder, hmult, ?_, ?_⟩
  · unfold kahanAreaSq
    rw [ha, hb, hc]
    split_ifs with h
    · simpa using h
    · simpa using h
  · intro q hq
    unfold kahanAreaSq at hq
    rw [ha, hb, hc] at hq
    split_ifs at hq with h
    push_neg at h
    have hq' : (1/16) * ((a + (b + c)) * (c - (a - b)) * (c + (a - b)) * (a + (b - c))) = q :=
      (Option.some.injEq _ _).mp hq
    refine ⟨hq'.symm, ?_⟩
    have h1 : (0:ℚ) ≤ a + (b + c) := by linarith [horder.1, horder.2]
    have h2 : (0:ℚ) ≤ c - (a - b) := by linarith
    have h3 : (0:ℚ) ≤ c + (a - b) := by linarith [horder.1]
    have h4 : (0:ℚ) ≤ a + (b - c) := by linarith [horder.1, horder.2]
    rw [← hq']
    push_cast
    rw [Real.sqrt_mul (by norm_num : (0:ℝ) ≤ 1/16)]
    have h116 : Real.sqrt (1/16) = 1/4 := by
      rw [show ((1:ℝ)/16) = (1/4)^2 by norm_num, Real.sqrt_sq (by norm_num)]
    rw [h116]
    norm_num

/-- Witness for `kahan_policy_spec` at the 3-4-5 right triangle
(squared area `36`, that is area `6`). -/
theorem kahan_policy_spec_witness :
    (0:ℚ) ≤ 3 ∧ sortDesc 3 4 5 = (5, 4, 3) ∧
    (kahanAreaSq 3 4 5 = none ↔ (3:ℚ) - (5 - 4) < 0) := by
  refine ⟨by norm_num, by norm_num [sortDesc], ?_⟩
  exact (kahan_policy_spec 3 4 5 (by norm_num) (by norm_num) (by norm_num)
    5 4 3 (by norm_num [sortDesc])).2.2.1

/-- C8.  The Heron policy: DEGENERATE unless all three sides exceed
`10⁻⁴`; otherwise the (squared) area is `s(s-a)(s-b)(s-c)` with
`s = (a+b+c)/2`. -/
theorem heron_policy_spec (a b c : ℚ) :
    (heronAreaSq a b c = none ↔ ¬(1/10000 < a ∧ 1/10000 < b ∧ 1/10000 < c)) ∧
    (∀ q, heronAreaSq a b c = some q →
      q = ((a + b + c)/2) * (((a + b + c)/2) - a) *
          (((a + b + c)/2) - b) * (((a + b + c)/2) - c)) := by
  constructor
  · unfold heronAreaSq
    split_ifs with h
    · simpa using h
    · simpa using h
  · intro q hq
    unfold heronAreaSq at hq
    split_ifs at hq with h
    have hq' := (Option.some.injEq _ _).mp hq
    rw [← hq']
    ring

/-- Witness for `heron_policy_spec` at the 3-4-5 right triangle. -/
theorem heron_policy_spec_witness :
    ∃ q, heronAreaSq 3 4 5 = some q ∧
      q = ((3 + 4 + 5)/2) * (((3 + 4 + 5)/2) - 3) *
          (((3 + 4 + 5)/2) - 4) * (((3 + 4 + 5)/2) - 5) :=
  ⟨36, by norm_num [heronAreaSq], (heron_policy_spec 3 4 5).2 36 (by norm_num [heronAreaSq])⟩

/-! ## Python string primitives

The scripts use `str.startswith`, `str.strip`, `str.split` and numeric
conversion.  The Lean core `String` functions for these run on
`Substring` loops that the kernel cannot reduce, so the same operations
are implemented here structurally on the character list `String.data`. -/

/-- Python whitespace (the characters relevant to these files). -/
def isSpaceChar (c : Char) : Bool := c = ' ' || c = '\t' || c = '\n' || c = '\r'

/-- `line.startswith(tag)`. -/
def pyStartsWith (line tag : String) : Bool := tag.data.isPrefixOf line.data

/-- `line.strip()`: drop leading and trailing whitespace. -/
def pyStrip (s : String) : String :=
  ⟨((s.data.dropWhile isSpaceChar).reverse.dropWhile isSpaceChar).reverse⟩

/-- Helper of `pySplit`: scan the characters, flushing the
accumulated (reversed) word at each whitespace run. -/
def wordsAux : List Char → List Char → List String
  | [], acc => if acc = [] then [] else [⟨acc.reverse⟩]
  | c :: cs, acc =>
    if isSpaceChar c then
      if acc = [] then wordsAux cs [] else ⟨acc.reverse⟩ :: wordsAux cs []
    else wordsAux cs (c :: acc)

/-- Python's `str.split()` (split on whitespace runs, no empty words). -/
def pySplit (s : String) : List String := wordsAux s.data []

/-- Value of a decimal digit character. -/
def digitVal (c : Char) : Option ℕ :=
  if '0' ≤ c ∧ c ≤ '9' then some (c.toNat - 48) else none

/-- Digits-only decimal reading; `none` on any non-digit. -/
def natOfDigits (cs : List Char) : Option ℕ :=
  cs.foldl (fun acc c => acc.bind fun n => (digitVal c).map fun d => 10 * n + d) (some 0)

/-- `int(word)` for the plain unsigned counts of the section headers;
`none` models `ValueError`. -/
def parseNat (w : String) : Option ℕ :=
  if w.data = [] then none else natOfDigits w.data

/-! ## Mesh-file section reader (`Worker.readout_*_count`) -/

/-- The single pass of `readout_vertices_count` (and its three twins,
`fingerprint_kahan.py` lines 85-103): the `tester` flag is set on a
line starting with the `begin` tag, every line seen while the flag is
set is collected (stripped), and a line starting with the `end` tag
breaks out of the loop.  Note that the `begin` line itself is
collected (the flag is already true when the trailing `append` runs). -/
def collectSection (beginTag endTag : String) : List String → Bool → List String
  | [], _ => []
  | line :: rest, tester =>
    let tester1 := if pyStartsWith line beginTag then true else tester
    if pyStartsWith line endTag then []
    else if tester1 then pyStrip line :: collectSection beginTag endTag rest tester1
    else collectSection beginTag endTag rest tester1

/-- `readout_*_count`: collect the section, then `del list[0]` removes
the first collected entry (the `begin` marker line).  `del` on an
empty list raises `IndexError`, modelled as `none`. -/
def readoutSection (beginTag endTag : String) (content : List String) : Option (List String) :=
  match collectSection beginTag endTag content false with
  | [] => none
  | _ :: rest => some rest

/-- `int(line.split()[2])` on a `begin <section> <count>` line;
`none` models the `IndexError`/`ValueError` on a malformed line. -/
def declaredCount (line : String) : Option ℕ :=
  ((pySplit line).get? 2).bind parseNat

/-- Python list indexing `lst[i]` with negative-index wrap-around;
`none` models `IndexError`. -/
def pyGet {α : Type} (l : List α) (i : ℤ) : Option α :=
  if 0 ≤ i then l.get? i.toNat
  else if -i ≤ (l.length : ℤ) then l.get? (l.length - (-i).toNat)
  else none

lemma collectSection_false_of_no_tags (beginTag endTag : String) (pre : List String)
    (hpre : ∀ l ∈ pre, pyStartsWith l beginTag = false ∧ pyStartsWith l endTag = false)
    (rest : List String) :
    collectSection beginTag endTag (pre ++ rest) false =
      collectSection beginTag endTag rest false := by
  induction pre with
  | nil => rfl
  | cons p pre ih =>
    have hp := hpre p (List.mem_cons_self p pre)
    have ih' := ih (fun l hl => hpre l (List.mem_cons_of_mem p hl))
    simp only [List.cons_append, collectSection, hp.1, hp.2, if_false, Bool.false_eq_true,
      ite_false]
    exact ih'

lemma collectSection_true_body (beginTag endTag : String) (body : List String)
    (hbody : ∀ l ∈ body, pyStartsWith l endTag = false)
    (e : String) (he : pyStartsWith e endTag = true) (post : List String) :
    collectSection beginTag endTag (body ++ e :: post) true = body.map pyStrip := by
  induction body with
  | nil => simp [collectSection, he]
  | cons x body ih =>
    have hx := hbody x (List.mem_cons_self x body)
    have ih' := ih (fun l hl => hbody l (List.mem_cons_of_mem x hl))
    simp [collectSection, hx, ih']

/-- C4.  A well-formed section `pre ++ b :: body ++ e :: post` (with a
`begin` line `b`, an `end` line `e`, and no stray markers): the first
collected line is the header line `b` itself — the line carrying the
declared count — and it is dropped, so the reader returns exactly the
stripped `body`; when `body` has as many lines as the header declares,
the number of collected entries equals the declared count. -/
theorem readout_drops_header_and_matches_count
    (beginTag endTag b e : String) (pre body post : List String) (n : ℕ)
    (hb : pyStartsWith b beginTag = true)
    (hbe : pyStartsWith b endTag = false)
    (he : pyStartsWith e endTag = true)
    (hpre : ∀ l ∈ pre, pyStartsWith l beginTag = false ∧ pyStartsWith l endTag = false)
    (hbody : ∀ l ∈ body, pyStartsWith l endTag = false)
    (hn : declaredCount b = some n)
    (hlen : body.length = n) :
    collectSection beginTag endTag (pre ++ b :: body ++ e :: post) false
        = pyStrip b :: body.map pyStrip ∧
    readoutSection beginTag endTag (pre ++ b :: body ++ e :: post)
        = some (body.map pyStrip) ∧
    ∃ collected, readoutSection beginTag endTag (pre ++ b :: body ++ e :: post)
        = some collected ∧ collected.length = n := by
  have hcoll : collectSection beginTag endTag (pre ++ b :: body ++ e :: post) false
      = pyStrip b :: body.map pyStrip := by
    have h1 : pre ++ b :: body ++ e :: post = pre ++ (b :: (body ++ e :: post)) := by
      simp
    rw [h1, collectSection_false_of_no_tags beginTag endTag pre hpre]
    simp only [collectSection, hb, if_true, hbe, Bool.false_eq_true, ite_false]
    rw [collectSection_true_body beginTag endTag body hbody e he post]
  refine ⟨hcoll, ?_, ?_⟩
  · unfold readoutSection
    rw [hcoll]
  · refine ⟨body.map pyStrip, ?_, ?_⟩
    · unfold readoutSection
      rw [hcoll]
    · rw [List.length_map]
      exact hlen

/-- Witness for `readout_drops_header_and_matches_count` on a concrete
two-vertex section. -/
theorem readout_drops_header_and_matches_count_witness :
    declaredCount "begin vertices 2" = some 2 ∧
    readoutSection "begin vertices " "end vertices"
      ["begin vertices 2", "0.1 0.2 0.3", "0.4 0.5 0.6", "end vertices"]
      = some ["0.1 0.2 0.3", "0.4 0.5 0.6"] := by
  constructor
  · decide
  · exact (readout_drops_header_and_matches_count "begin vertices " "end vertices"
      "begin vertices 2" "end vertices" [] ["0.1 0.2 0.3", "0.4 0.5 0.6"] [] 2
      (by decide) (by decide) (by decide) (by decide) (by decide) (by decide)
      (by decide)).2.1

/-- C6 counterexample.  A `begin` marker with no matching `end` does
not make the reader fail: it silently collects every following line.
Here the truncated file parses to `some [...]` instead of an error. -/
theorem readout_missing_end_succeeds :
    readoutSection "begin vertices " "end vertices"
      ["begin vertices 2", "0.1 0.2 0.3", "begin indices 1"]
      = some ["0.1 0.2 0.3", "begin indices 1"] := by
  decide

lemma collectSection_nil_of_no_begin (beginTag endTag : String) (content : List String)
    (h : ∀ l ∈ content, pyStartsWith l beginTag = false) :
    collectSection beginTag endTag content false = [] := by
  induction content with
  | nil => rfl
  | cons x rest ih =>
    have hx := h x (List.mem_cons_self x rest)
    have ih' := ih (fun l hl => h l (List.mem_cons_of_mem x hl))
    simp only [collectSection, hx, Bool.false_eq_true, ite_false]
    split_ifs <;> simp [ih']

lemma collectSection_ne_nil_of_begin (beginTag endTag : String) (content : List String)
    (hnoend : ∀ l ∈ content, pyStartsWith l endTag = false)
    (hbegin : ∃ l ∈ content, pyStartsWith l beginTag = true) :
    ∀ t, collectSection beginTag endTag content t ≠ [] := by
  induction content with
  | nil => simp at hbegin
  | cons x rest ih =>
    intro t
    have hx := hnoend x (List.mem_cons_self x rest)
    by_cases hbx : pyStartsWith x beginTag = true
    · simp [collectSection, hbx, hx]
    · obtain ⟨l, hl, hbl⟩ := hbegin
      rcases List.mem_cons.mp hl with rfl | hl'
      · exact absurd hbl hbx
      · have ih' := ih (fun l hl => hnoend l (List.mem_cons_of_mem x hl)) ⟨l, hl', hbl⟩
        simp only [collectSection, hbx, Bool.false_eq_true, ite_false, hx]
        split_ifs with ht
        · simp
        · exact ih' t

/-- C6 amended.  The reader fails (unhandled `IndexError` from
`del list[0]`, modelled `none`) exactly in the no-`begin`-marker case;
with a `begin` marker present and no `end` marker at all it still
succeeds; and a triangle's vertex lookup `vertices[i]` fails with
`IndexError` exactly when `i` is out of Python's index range
(`i ≥ len` or `i < -len`). -/
theorem readout_failure_modes (beginTag endTag : String) (content : List String)
    (verts : List String) (i : ℤ) :
    ((∀ l ∈ content, pyStartsWith l beginTag = false) →
      readoutSection beginTag endTag content = none) ∧
    ((∀ l ∈ content, pyStartsWith l endTag = false) →
      (∃ l ∈ content, pyStartsWith l beginTag = true) →
      (readoutSection beginTag endTag content).isSome = true) ∧
    (((verts.length : ℤ) ≤ i ∨ i < -(verts.length : ℤ)) → pyGet verts i = none) ∧
    ((0 ≤ i ∧ i < (verts.length : ℤ)) → (pyGet verts i).isSome = true) := by
  refine ⟨?_, ?_, ?_, ?_⟩
  · intro h
    unfold readoutSection
    rw [collectSection_nil_of_no_begin beginTag endTag content h]
  · intro hnoend hbegin
    unfold readoutSection
    have h := collectSection_ne_nil_of_begin beginTag endTag content hnoend hbegin false
    cases hc : collectSection beginTag endTag content false with
    | nil => exact absurd hc h
    | cons x rest => rfl
  · intro h
    unfold pyGet
    rcases h with h | h
    · have hi0 : 0 ≤ i := le_trans (Int.ofNat_nonneg verts.length) h
      rw [if_pos hi0]
      exact List.get?_eq_none.mpr (by omega)
    · have hi0 : ¬ 0 ≤ i := by omega
      rw [if_neg hi0, if_neg (by omega)]
  · intro ⟨h0, hlt⟩
    unfold pyGet
    rw [if_pos h0]
    have : i.toNat < verts.length := by omega
    rw [List.get?_eq_get this]
    rfl

/-- Witness for `readout_failure_modes`: a file with no `begin` marker
fails; an out-of-range and an in-range vertex index. -/
theorem readout_failure_modes_witness :
    readoutSection "begin d_i " "end d_i" ["1.234", "5.678"] = none ∧
    pyGet ["0.1 0.2 0.3", "0.4 0.5 0.6"] 5 = none ∧
    (pyGet ["0.1 0.2 0.3", "0.4 0.5 0.6"] 1).isSome = true :=
  ⟨(readout_failure_modes "begin d_i " "end d_i" ["1.234", "5.678"] [] 0).1 (by decide),
   (readout_failure_modes "begin d_i " "end d_i" []
      ["0.1 0.2 0.3", "0.4 0.5 0.6"] 5).2.2.1 (by decide),
   (readout_failure_modes "begin d_i " "end d_i" []
      ["0.1 0.2 0.3", "0.4 0.5 0.6"] 1).2.2.2 (by decide)⟩

/-! ## Decimal parsing (`float(...)` / `Decimal(...)` on the fixed
decimal notation of the persisted `.dat` files) -/

/-- Parse an optionally signed plain decimal (`-?digits[.digits]`)
exactly, as the scripts' `float`/`Decimal` conversions do on the
8-decimal formatted `.dat` columns; `none` models the conversion
error. -/
def parseDec (s : String) : Option ℚ :=
  let core : List Char → Option ℚ := fun cs =>
    let ip := cs.takeWhile (fun c => c ≠ '.')
    match cs.dropWhile (fun c => c ≠ '.') with
    | [] => if ip = [] then none else (natOfDigits ip).map (fun n => (n : ℚ))
    | _ :: fp =>
      if ip = [] ∧ fp = [] then none
      else (natOfDigits ip).bind (fun n => (natOfDigits fp).map
        (fun f => (n : ℚ) + (f : ℚ) / 10 ^ fp.length))
  match s.data with
  | '-' :: rest => (core rest).map (fun q => -q)
  | cs => core cs

/-! ## Difference maps (`diff_finger.py`)

A persisted fingerprint file is modelled as its list of lines (already
stripped of line feeds, as after `line.strip()`). -/

/-- `str(ref_screen[0].split()[1])[:4]` (`diff_finger.py` lines 63/69):
the first four characters of the second whitespace field of the first
line — the `d_e` value of the first row, which the script calls the
"lowest y_value".  `none` models the `IndexError` on an empty file or
a first line with fewer than two fields. -/
def yMin (screen : List String) : Option String :=
  (screen.get? 0).bind (fun s => ((pySplit s).get? 1).map (fun t => ⟨t.data.take 4⟩))

/-- The compatibility check of `diff_finger.py` lines 71-72:
equal total line counts and equal `yMin`. -/
def compatCheck (ref probe : List String) : Option Bool :=
  match yMin ref, yMin probe with
  | some a, some b => some (ref.length == probe.length && a == b)
  | _, _ => none

/-- The first whitespace field of the first line: the minimum `d_i`
(the first grid coordinate) of a sorted fingerprint file. -/
def firstDi (screen : List String) : Option String :=
  (screen.get? 0).bind (fun s => (pySplit s).get? 0)

/-- The compatibility predicate as the specification words it
("equal entry counts and equal minimum d_i value (first grid
coordinate)"), for comparison against `compatCheck`. -/
def specCompatible (ref probe : List String) : Option Bool :=
  match firstDi ref, firstDi probe with
  | some a, some b => some (ref.length == probe.length && a == b)
  | _, _ => none

/-- Lines kept by the content scan of `diff_finger.py` lines 78-109:
the whitespace fields of each stripped line that has exactly three
fields (blank separator lines have zero fields and are dropped). -/
def rowFields (lines : List String) : List (List String) :=
  lines.filterMap (fun l =>
    if (pySplit (pyStrip l)).length = 3 then some (pySplit (pyStrip l)) else none)

/-- `astype(np.float)` on one three-field row; `none` models the
conversion error. -/
def parseTriple : List String → Option (ℚ × ℚ × ℚ)
  | [a, b, c] =>
    match parseDec a, parseDec b, parseDec c with
    | some x, some y, some z => some (x, y, z)
    | _, _, _ => none
  | _ => none

/-- The parsed three-column content of a fingerprint file. -/
def contentRows (lines : List String) : Option (List (ℚ × ℚ × ℚ)) :=
  (rowFields lines).mapM parseTriple

/-- `z_ref_array - z_probe_array` with the coordinate columns taken
from the reference (`diff_finger.py` lines 115-131); a row-count
mismatch is a numpy broadcast error, modelled `none`. -/
def diffRows (ref probe : List (ℚ × ℚ × ℚ)) : Option (List (ℚ × ℚ × ℚ)) :=
  if ref.length = probe.length then
    some (List.zipWith (fun r p => (r.1, r.2.1, r.2.2 - p.2.2)) ref probe)
  else none

/-- One iteration of the comparison loop for a pair of files:
`Except.error` is an unhandled exception, `Except.ok none` is the
silent `continue` on an incompatible pair, `Except.ok (some d)` is a
written difference map. -/
def processPair (ref probe : List String) : Except Unit (Option (List (ℚ × ℚ × ℚ))) :=
  match compatCheck ref probe with
  | none => Except.error ()
  | some false => Except.ok none
  | some true =>
    match contentRows ref, contentRows probe with
    | some r, some p =>
      match diffRows r p with
      | some d => Except.ok (some d)
      | none => Except.error ()
    | _, _ => Except.error ()

/-- C5 counterexample.  Two one-line files with equal length and equal
second coordinate but different first coordinate (`d_i` 0.40 vs 0.60):
the script judges them compatible, the spec's predicate (equal minimum
`d_i`) does not — the script compares the second field, `d_e`. -/
theorem compat_uses_de_counterexample :
    compatCheck ["0.40 0.50 0.00000000"] ["0.60 0.50 0.00000000"] = some true ∧
    firstDi ["0.40 0.50 0.00000000"] = some "0.40" ∧
    firstDi ["0.60 0.50 0.00000000"] = some "0.60" ∧
    specCompatible ["0.40 0.50 0.00000000"] ["0.60 0.50 0.00000000"] = some false := by
  refine ⟨?_, ?_, ?_, ?_⟩ <;> decide

/-- C5 amended.  The script's check: compatible iff the two files have
equal line counts and equal 4-character truncations of the second
field (`d_e`) of their first lines; an incompatible pair is skipped
(`Except.ok none`), producing no output and no crash. -/
theorem compat_amended (ref probe : List String) (yr yp : String)
    (hr : yMin ref = some yr) (hp : yMin probe = some yp) :
    (compatCheck ref probe = some true ↔ (ref.length = probe.length ∧ yr = yp)) ∧
    (compatCheck ref probe = some false → processPair ref probe = Except.ok none) := by
  constructor
  · unfold compatCheck
    rw [hr, hp]
    simp
  · intro h
    unfold processPair
    rw [h]

/-- Witness for `compat_amended`: a file compared against itself. -/
theorem compat_amended_witness :
    yMin ["0.40 0.40 0.00000000"] = some "0.40" ∧
    (compatCheck ["0.40 0.40 0.00000000"] ["0.40 0.40 0.00000000"] = some true ↔
      (["0.40 0.40 0.00000000"].length = ["0.40 0.40 0.00000000"].length ∧
       ("0.40" : String) = "0.40")) :=
  ⟨by decide,
   (compat_amended ["0.40 0.40 0.00000000"] ["0.40 0.40 0.00000000"] "0.40" "0.40"
     (by decide) (by decide)).1⟩

/-! ## Round-robin tournament (`diff_finger.py` lines 52-56 and 171-172) -/

/-- `while len(register) > 1: for entry in register[1:]: pair(register[0],
entry); del register[0]`: diff the first element against every remaining
one, drop it, repeat. -/
def roundRobin {α : Type} : List α → List (α × α)
  | [] => []
  | x :: rest => (rest.map fun y => (x, y)) ++ roundRobin rest

lemma roundRobin_mem {α : Type} : ∀ (l : List α) (p : α × α),
    p ∈ roundRobin l → p.1 ∈ l ∧ p.2 ∈ l := by
  intro l
  induction l with
  | nil => intro p hp; simp [roundRobin] at hp
  | cons x rest ih =>
    intro p hp
    rcases List.mem_append.mp hp with h | h
    · obtain ⟨y, hy, hxy⟩ := List.mem_map.mp h
      rw [← hxy]
      exact ⟨List.mem_cons_self x rest, List.mem_cons_of_mem x hy⟩
    · obtain ⟨h1, h2⟩ := ih p h
      exact ⟨List.mem_cons_of_mem x h1, List.mem_cons_of_mem x h2⟩

lemma roundRobin_length {α : Type} : ∀ l : List α,
    2 * (roundRobin l).length = l.length * (l.length - 1) := by
  intro l
  induction l with
  | nil => rfl
  | cons x rest ih =>
    simp only [roundRobin, List.length_append, List.length_map, List.length_cons]
    rw [Nat.mul_add, ih]
    rcases rest with _ | ⟨y, rest2⟩
    · rfl
    · rw [show (y :: rest2).length + 1 - 1 = (y :: rest2).length from rfl,
        show (y :: rest2).length - 1 = rest2.length from rfl,
        List.length_cons]
      ring

lemma roundRobin_nodup {α : Type} : ∀ l : List α, l.Nodup → (roundRobin l).Nodup := by
  intro l
  induction l with
  | nil => intro _; simp [roundRobin]
  | cons x rest ih =>
    intro hn
    rw [List.nodup_cons] at hn
    refine List.Nodup.append ?_ (ih hn.2) ?_
    · exact hn.2.map (fun a b hab => (Prod.mk.injEq x a x b).mp hab |>.2)
    · intro p hp hp'
      obtain ⟨y, _, hxy⟩ := List.mem_map.mp hp
      have h1 := (roundRobin_mem rest p hp').1
      rw [← hxy] at h1
      exact hn.1 h1

lemma roundRobin_mem_iff {α : Type} [LinearOrder α] : ∀ l : List α,
    l.Sorted (· ≤ ·) → l.Nodup →
    ∀ a b : α, (a, b) ∈ roundRobin l ↔ a ∈ l ∧ b ∈ l ∧ a < b := by
  intro l
  induction l with
  | nil => intro _ _ a b; simp [roundRobin]
  | cons x rest ih =>
    intro hs hn a b
    rw [List.sorted_cons] at hs
    rw [List.nodup_cons] at hn
    have ih' := ih hs.2 hn.2 a b
    constructor
    · intro hp
      rcases List.mem_append.mp hp with h | h
      · obtain ⟨y, hy, hxy⟩ := List.mem_map.mp h
        rw [Prod.mk.injEq] at hxy
        obtain ⟨rfl, rfl⟩ := hxy
        have hlt : x < y := lt_of_le_of_ne (hs.1 y hy) (fun he => hn.1 (he ▸ hy))
        exact ⟨List.mem_cons_self x rest, List.mem_cons_of_mem x hy, hlt⟩
      · obtain ⟨ha, hb, hab⟩ := ih'.mp h
        exact ⟨List.mem_cons_of_mem x ha, List.mem_cons_of_mem x hb, hab⟩
    · rintro ⟨ha, hb, hab⟩
      rcases List.mem_cons.mp ha with rfl | ha'
      · have hb' : b ∈ rest := by
          rcases List.mem_cons.mp hb with rfl | hb'
          · exact absurd hab (lt_irrefl b)
          · exact hb'
        exact List.mem_append.mpr (Or.inl (List.mem_map.mpr ⟨b, hb', rfl⟩))
      · have hb' : b ∈ rest := by
          rcases List.mem_cons.mp hb with rfl | hb'
          · have := hs.1 a ha'
            exact absurd hab (not_lt.mpr this)
          · exact hb'
        exact List.mem_append.mpr (Or.inr (ih'.mpr ⟨ha', hb', hab⟩))

/-- C9.  Round-robin over a list sorted by identifier: the pairs
produced are exactly the `(a, b)` with `a` before `b` (equivalently
`a < b` for a sorted duplicate-free list), each exactly once (the
output has no duplicates), `2·#pairs = n(n-1)`; and for three
fingerprints A, B, C exactly the three maps A-B, A-C, B-C result. -/
theorem round_robin_spec :
    (∀ (α : Type) [LinearOrder α] (l : List α), l.Sorted (· ≤ ·) → l.Nodup →
      2 * (roundRobin l).length = l.length * (l.length - 1) ∧
      (roundRobin l).Nodup ∧
      (∀ a b : α, (a, b) ∈ roundRobin l ↔ a ∈ l ∧ b ∈ l ∧ a < b)) ∧
    roundRobin ["A", "B", "C"] = [("A", "B"), ("A", "C"), ("B", "C")] := by
  constructor
  · intro α _ l hs hn
    exact ⟨roundRobin_length l, roundRobin_nodup l hn, roundRobin_mem_iff l hs hn⟩
  · decide

/-- Witness for `round_robin_spec` on three sorted distinct
identifiers. -/
theorem round_robin_spec_witness :
    List.Sorted (· ≤ ·) ['A', 'B', 'C'] ∧ List.Nodup ['A', 'B', 'C'] ∧
    2 * (roundRobin ['A', 'B', 'C']).length = 3 * (3 - 1) :=
  ⟨by decide, by decide,
   (round_robin_spec.1 Char ['A', 'B', 'C'] (by decide) (by decide)).1⟩

/-! ## Difference number (`sum_abs_diffs.py` lines 44-51) -/

/-- Third whitespace field of a stripped line, read as a decimal
(`Decimal(str(line.strip()).split()[2])`); `none` models the
exception on a malformed data line. -/
def lineVal (line : String) : Option ℚ :=
  ((pySplit (pyStrip line)).get? 2).bind parseDec

/-- One line of the `sum_abs_diffs.py` accumulation.  Lines are raw
file lines (trailing newline included), so Python's `len(line) > 2`
guard is `2 < line.length` here; a failing conversion poisons the
accumulator (`none` = crash). -/
def diffNumberStep (acc : Option ℚ) (line : String) : Option ℚ :=
  if 2 < line.length then acc.bind (fun a => (lineVal line).map (fun v => a + |v|)) else acc

/-- `diff_number` for one `diff*.dat` file, starting from `0`. -/
def diffNumber (lines : List String) : Option ℚ :=
  lines.foldl diffNumberStep (some 0)

/-- The contribution of a single line: `|value|` for a data line,
nothing for a short (blank/structural) line. -/
def lineContrib (line : String) : Option ℚ :=
  if 2 < line.length then (lineVal line).map (fun v => |v|) else none

lemma diffNumber_foldl (lines : List String)
    (hwf : ∀ l ∈ lines, 2 < l.length → (lineVal l).isSome = true) :
    ∀ a : ℚ, lines.foldl diffNumberStep (some a)
      = some (a + (lines.filterMap lineContrib).sum) := by
  induction lines with
  | nil => intro a; simp
  | cons l ls ih =>
    intro a
    have hl := hwf l (List.mem_cons_self l ls)
    have ih' := ih (fun x hx => hwf x (List.mem_cons_of_mem l hx))
    by_cases hlen : 2 < l.length
    · obtain ⟨v, hv⟩ := Option.isSome_iff_exists.mp (hl hlen)
      have hstep : diffNumberStep (some a) l = some (a + |v|) := by
        simp [diffNumberStep, if_pos hlen, hv]
      have hcontrib : (l :: ls).filterMap lineContrib = |v| :: ls.filterMap lineContrib := by
        simp [List.filterMap_cons, lineContrib, if_pos hlen, hv]
      rw [List.foldl_cons, hstep, ih' (a + |v|), hcontrib, List.sum_cons]
      exact congrArg some (by ring)
    · have hstep : diffNumberStep (some a) l = some a := by
        simp [diffNumberStep, if_neg hlen]
      have hcontrib : (l :: ls).filterMap lineContrib = ls.filterMap lineContrib := by
        simp [List.filterMap_cons, lineContrib, if_neg hlen]
      rw [List.foldl_cons, hstep, ih' a, hcontrib]

/-- C10.  The difference number of a `diff*.dat` file: the sum of the
absolute values of all data-line bins; blank/structural lines (Python
`len(line) <= 2`, including their newline) contribute nothing, and the
result is non-negative. -/
theorem aggregate_spec (lines : List String)
    (hwf : ∀ l ∈ lines, 2 < l.length → (lineVal l).isSome = true) :
    (∃ q, diffNumber lines = some q ∧
      q = (lines.filterMap lineContrib).sum ∧ 0 ≤ q) ∧
    (∀ (pre suf : List String) (bl : String), bl.length ≤ 2 →
      diffNumber (pre ++ bl :: suf) = diffNumber (pre ++ suf)) := by
  constructor
  · refine ⟨(lines.filterMap lineContrib).sum, ?_, rfl, ?_⟩
    · unfold diffNumber
      rw [diffNumber_foldl lines hwf 0, zero_add]
    · apply List.sum_nonneg
      intro x hx
      obtain ⟨l, _, hl⟩ := List.mem_filterMap.mp hx
      unfold lineContrib at hl
      split_ifs at hl
      obtain ⟨v, _, hv⟩ := Option.map_eq_some'.mp hl
      rw [← hv]
      exact abs_nonneg v
  · intro pre suf bl hbl
    unfold diffNumber
    rw [List.foldl_append, List.foldl_append, List.foldl_cons]
    have : diffNumberStep (pre.foldl diffNumberStep (some 0)) bl
        = pre.foldl diffNumberStep (some 0) := by
      unfold diffNumberStep
      rw [if_neg (by omega)]
    rw [this]

/-- Witness for `aggregate_spec` on a three-line file with one blank
separator line. -/
theorem aggregate_spec_witness :
    (∀ l ∈ ["0.40 0.40 0.50000000\n", "\n", "0.40 0.41 -0.25000000\n"],
      2 < l.length → (lineVal l).isSome = true) ∧
    (∃ q, diffNumber ["0.40 0.40 0.50000000\n", "\n", "0.40 0.41 -0.25000000\n"] = some q ∧
      q = (["0.40 0.40 0.50000000\n", "\n",
            "0.40 0.41 -0.25000000\n"].filterMap lineContrib).sum ∧ 0 ≤ q) := by
  have hwf : ∀ l ∈ ["0.40 0.40 0.50000000\n", "\n", "0.40 0.41 -0.25000000\n"],
      2 < l.length → (lineVal l).isSome = true := by decide
  exact ⟨hwf, (aggregate_spec _ hwf).1⟩

/-! ## Binning (`Worker.numpy_free_area_binning` and
`Worker.dat_file_generation`)

Bin keys are the two-decimal formatted `(d_i, d_e)` pairs; they are
represented as integer hundredths (`"{:3.2f}".format(x)` becomes
`round (x * 100)`; Python's format applies round-half-even on the
binary double where `round` here is round-half-up — no claim depends
on the tie rule).  The scripts' string keys compare equal exactly when
these integer pairs do, and the scan-and-flush aggregation only needs
equal keys to be adjacent after sorting. -/

/-- A bin key: `(d_i, d_e)` in integer hundredths. -/
abbrev Key : Type := ℤ × ℤ

/-- A line of `pre_binned` / `recorder_register`: key plus area. -/
abbrev BinEntry : Type := Key × ℚ

/-- Two-decimal quantization `"{:3.2f}"` as integer hundredths. -/
def q2 (x : ℚ) : ℤ := round (x * 100)

/-- A `computed_triangles` line turned into its `pre_binned` entry
`"{:3.2f} {:3.2f} {}".format(new_di, new_de, area)`. -/
def entryOf (t : Tri) : BinEntry := ((q2 t.di, q2 t.de), t.area)

/-- Ordering of the formatted keys (lexicographic on `(d_i, d_e)`),
the order in which `pre_binned.sort()` arranges distinct keys. -/
def keyLE (p q : Key) : Bool := decide (p.1 < q.1 ∨ (p.1 = q.1 ∧ p.2 ≤ q.2))

lemma keyLE_iff (p q : Key) :
    keyLE p q = true ↔ (p.1 < q.1 ∨ (p.1 = q.1 ∧ p.2 ≤ q.2)) := by
  simp [keyLE]

lemma keyLE_trans (p q r : Key) (h1 : keyLE p q = true) (h2 : keyLE q r = true) :
    keyLE p r = true := by
  rw [keyLE_iff] at *
  omega

lemma keyLE_total (p q : Key) : keyLE p q = true ∨ keyLE q p = true := by
  rw [keyLE_iff, keyLE_iff]
  omega

lemma keyLE_antisymm (p q : Key) (h1 : keyLE p q = true) (h2 : keyLE q p = true) :
    p = q := by
  rw [keyLE_iff] at h1 h2
  have h3 : p.1 = q.1 ∧ p.2 = q.2 := by omega
  exact Prod.ext h3.1 h3.2

/-- The list ordering used by `pre_binned.sort()` /
`raw_sum_list.sort()`, restricted to what the aggregation observes:
entries compare by key. -/
def entryLE (e f : BinEntry) : Prop := keyLE e.1 f.1 = true

instance : DecidableRel entryLE := fun e f =>
  inferInstanceAs (Decidable (keyLE e.1 f.1 = true))

instance : IsTotal BinEntry entryLE := ⟨fun e f => keyLE_total e.1 f.1⟩

instance : IsTrans BinEntry entryLE := ⟨fun e f g => keyLE_trans e.1 f.1 g.1⟩

/-- `list.sort()` (a stable sort; equal-key order is irrelevant to the
aggregation). -/
def sortEntries (l : List BinEntry) : List BinEntry := List.insertionSort entryLE l

/-- Keys of a list are in sorted order (equal keys adjacent). -/
def KeySorted (ks : List Key) : Prop := List.Pairwise (fun p q => keyLE p q = true) ks

/-- The scan-and-flush aggregation of `numpy_free_area_binning`
(lines 291-303) and `dat_file_generation` (lines 361-372): walk the
sorted list; while the key repeats, add the value into `local_area`;
on a key change flush `(old_key, local_area)`.  The initial
`old_key = ""` is `none` here (its flush — the heading zero entry that
`del register[0]` removes — is therefore not emitted), and the
appended stop word `"0 0 0"` (never equal to a two-decimal formatted
key) forces the final flush, modelled as flushing at the end of the
list. -/
def groupScan : List BinEntry → Option Key → ℚ → List BinEntry
  | [], old, acc =>
    match old with
    | none => []
    | some k => [(k, acc)]
  | (k, v) :: rest, old, acc =>
    if old = some k then groupScan rest old (acc + v)
    else
      match old with
      | none => groupScan rest (some k) v
      | some ko => (ko, acc) :: groupScan rest (some k) v

/-- The whole pass (initial `old_key = ""`, `local_area = 0`) with the
heading zero entry already removed. -/
def runGroups (l : List BinEntry) : List BinEntry := groupScan l none 0

/-- Adjacent duplicate removal: the key sequence left by the flushes. -/
def dedupAdj : List Key → List Key
  | [] => []
  | [k] => [k]
  | k :: k2 :: rest => if k = k2 then dedupAdj (k2 :: rest) else k :: dedupAdj (k2 :: rest)

/-- Total area collected for one key (the "accumulated raw area" of a
bin). -/
def keySum (k : Key) (l : List BinEntry) : ℚ :=
  ((l.filter (fun e => decide (e.1 = k))).map Prod.snd).sum

lemma groupScan_cons_eq (k : Key) (v : ℚ) (rest : List BinEntry) (a : ℚ) :
    groupScan ((k, v) :: rest) (some k) a = groupScan rest (some k) (a + v) := by
  simp [groupScan]

lemma groupScan_cons_ne (k : Key) (v : ℚ) (rest : List BinEntry) (ko : Key) (a : ℚ)
    (h : ko ≠ k) :
    groupScan ((k, v) :: rest) (some ko) a = (ko, a) :: groupScan rest (some k) v := by
  simp [groupScan, h]

lemma groupScan_cons_none (k : Key) (v : ℚ) (rest : List BinEntry) (a : ℚ) :
    groupScan ((k, v) :: rest) none a = groupScan rest (some k) v := by
  simp [groupScan]

lemma groupScan_sum (l : List BinEntry) : ∀ (k : Key) (a : ℚ),
    ((groupScan l (some k) a).map Prod.snd).sum = a + (l.map Prod.snd).sum := by
  induction l with
  | nil => intro k a; simp [groupScan]
  | cons e rest ih =>
    intro k a
    obtain ⟨ke, ve⟩ := e
    by_cases h : k = ke
    · subst h
      rw [groupScan_cons_eq, ih]
      simp only [List.map_cons, List.sum_cons]
      ring
    · rw [groupScan_cons_ne _ _ _ _ _ h, List.map_cons, List.sum_cons, ih]
      simp only [List.map_cons, List.sum_cons]

lemma runGroups_sum (l : List BinEntry) :
    ((runGroups l).map Prod.snd).sum = (l.map Prod.snd).sum := by
  cases l with
  | nil => rfl
  | cons e rest =>
    obtain ⟨k, v⟩ := e
    unfold runGroups
    rw [groupScan_cons_none, groupScan_sum]
    simp

lemma mem_dedupAdj : ∀ (l : List Key) (k : Key), k ∈ dedupAdj l ↔ k ∈ l := by
  intro l
  induction l with
  | nil => intro k; simp [dedupAdj]
  | cons a rest ih =>
    intro k
    cases rest with
    | nil => simp [dedupAdj]
    | cons b rest2 =>
      by_cases h : a = b
      · subst h
        rw [show dedupAdj (a :: a :: rest2) = dedupAdj (a :: rest2) from by
          simp [dedupAdj]]
        rw [ih k]
        simp [List.mem_cons]
      · rw [show dedupAdj (a :: b :: rest2) = a :: dedupAdj (b :: rest2) from by
          simp [dedupAdj, h]]
        rw [List.mem_cons, List.mem_cons, ih k]

lemma groupScan_fst (l : List BinEntry) : ∀ (k : Key) (a : ℚ),
    (groupScan l (some k) a).map Prod.fst = dedupAdj (k :: l.map Prod.fst) := by
  induction l with
  | nil => intro k a; simp [groupScan, dedupAdj]
  | cons e rest ih =>
    intro k a
    obtain ⟨ke, ve⟩ := e
    by_cases h : k = ke
    · subst h
      rw [groupScan_cons_eq, ih]
      simp [dedupAdj]
    · rw [groupScan_cons_ne _ _ _ _ _ h, List.map_cons, ih]
      simp [dedupAdj, h]

lemma runGroups_fst (l : List BinEntry) :
    (runGroups l).map Prod.fst = dedupAdj (l.map Prod.fst) := by
  cases l with
  | nil => rfl
  | cons e rest =>
    obtain ⟨k, v⟩ := e
    unfold runGroups
    rw [groupScan_cons_none, groupScan_fst]
    simp

lemma dedupAdj_nodup : ∀ l : List Key, KeySorted l → (dedupAdj l).Nodup := by
  intro l
  induction l with
  | nil => intro _; simp [dedupAdj]
  | cons a rest ih =>
    intro hp
    rw [KeySorted, List.pairwise_cons] at hp
    cases rest with
    | nil => simp [dedupAdj]
    | cons b rest2 =>
      by_cases h : a = b
      · rw [show dedupAdj (a :: b :: rest2) = dedupAdj (b :: rest2) from by
          simp [dedupAdj, h]]
        exact ih hp.2
      · rw [show dedupAdj (a :: b :: rest2) = a :: dedupAdj (b :: rest2) from by
          simp [dedupAdj, h]]
        rw [List.nodup_cons]
        refine ⟨?_, ih hp.2⟩
        intro hmem
        rw [mem_dedupAdj] at hmem
        rcases List.mem_cons.mp hmem with rfl | hmem2
        · exact h rfl
        · have h1 : keyLE a b = true := hp.1 b (List.mem_cons_self b rest2)
          have h2 : keyLE b a = true :=
            (List.pairwise_cons.mp hp.2).1 a hmem2
          have h3 : keyLE a b = true := hp.1 b (List.mem_cons_self b rest2)
          exact h (keyLE_antisymm a b h3 h2)

lemma keySum_cons (k k' : Key) (v : ℚ) (l : List BinEntry) :
    keySum k ((k', v) :: l) = if k' = k then v + keySum k l else keySum k l := by
  unfold keySum
  by_cases h : k' = k
  · simp [List.filter_cons, h]
  · simp [List.filter_cons, h]

lemma keySum_eq_zero_of_not_mem (k : Key) (l : List BinEntry)
    (h : k ∉ l.map Prod.fst) : keySum k l = 0 := by
  induction l with
  | nil => rfl
  | cons e rest ih =>
    obtain ⟨ke, ve⟩ := e
    simp only [List.map_cons, List.mem_cons] at h
    push_neg at h
    rw [keySum_cons, if_neg (fun he => h.1 he.symm)]
    exact ih h.2

lemma pairwise_head_not_mem (k ke : Key) (ms : List Key)
    (hp : List.Pairwise (fun p q => keyLE p q = true) (k :: ke :: ms))
    (h : k ≠ ke) : k ∉ ke :: ms := by
  intro hmem
  rw [List.pairwise_cons] at hp
  rcases List.mem_cons.mp hmem with rfl | hm
  · exact h rfl
  · have h1 : keyLE k ke = true := hp.1 ke (List.mem_cons_self ke ms)
    have h2 : keyLE ke k = true := (List.pairwise_cons.mp hp.2).1 k hm
    exact h (keyLE_antisymm k ke h1 h2)

lemma groupScan_val (l : List BinEntry) : ∀ (k : Key) (a : ℚ),
    KeySorted (k :: l.map Prod.fst) →
    ∀ p ∈ groupScan l (some k) a,
      (p.1 = k ∧ p.2 = a + keySum k l) ∨
      (p.1 ≠ k ∧ p.2 = keySum p.1 l ∧ p.1 ∈ l.map Prod.fst) := by
  induction l with
  | nil =>
    intro k a _ p hp
    simp only [groupScan, List.mem_singleton] at hp
    subst hp
    left
    exact ⟨rfl, by simp [keySum]⟩
  | cons e rest ih =>
    intro k a hs p hp
    obtain ⟨ke, ve⟩ := e
    simp only [List.map_cons] at hs
    by_cases h : k = ke
    · subst h
      rw [groupScan_cons_eq] at hp
      have hs' : KeySorted (k :: rest.map Prod.fst) := (List.pairwise_cons.mp hs).2
      rcases ih k (a + ve) hs' p hp with ⟨hpk, hval⟩ | ⟨hpk, hval, hmem⟩
      · left
        refine ⟨hpk, ?_⟩
        rw [hval, keySum_cons, if_pos rfl]
        ring
      · right
        refine ⟨hpk, ?_, List.mem_cons_of_mem _ hmem⟩
        rw [hval, keySum_cons, if_neg (fun he => hpk he.symm)]
    · have hknot : k ∉ ke :: rest.map Prod.fst := pairwise_head_not_mem k ke _ hs h
      rw [groupScan_cons_ne _ _ _ _ _ h] at hp
      rcases List.mem_cons.mp hp with rfl | hp2
      · left
        refine ⟨rfl, ?_⟩
        have : keySum k ((ke, ve) :: rest) = 0 :=
          keySum_eq_zero_of_not_mem k _ (by simpa using hknot)
        rw [this, add_zero]
      · have hs' : KeySorted (ke :: rest.map Prod.fst) := (List.pairwise_cons.mp hs).2
        rcases ih ke ve hs' p hp2 with ⟨hpk, hval⟩ | ⟨hpk, hval, hmem⟩
        · right
          refine ⟨fun he => h (he.symm.trans hpk), ?_, ?_⟩
          · rw [hval, hpk, keySum_cons, if_pos rfl]
          · rw [List.map_cons, hpk]
            exact List.mem_cons_self ke _
        · right
          have hpknotk : p.1 ≠ k := by
            intro he
            apply hknot
            rw [← he]
            exact List.mem_cons_of_mem _ hmem
          refine ⟨hpknotk, ?_, List.mem_cons_of_mem _ hmem⟩
          rw [hval, keySum_cons, if_neg (fun he => hpk he.symm)]

lemma runGroups_val (l : List BinEntry) (hs : KeySorted (l.map Prod.fst)) :
    ∀ p ∈ runGroups l, p.2 = keySum p.1 l ∧ p.1 ∈ l.map Prod.fst := by
  cases l with
  | nil => intro p hp; simp [runGroups, groupScan] at hp
  | cons e rest =>
    obtain ⟨k, v⟩ := e
    intro p hp
    unfold runGroups at hp
    rw [groupScan_cons_none] at hp
    simp only [List.map_cons] at hs
    rcases groupScan_val rest k v hs p hp with ⟨hpk, hval⟩ | ⟨hpk, hval, hmem⟩
    · constructor
      · rw [hval, hpk, keySum_cons, if_pos rfl]
      · rw [List.map_cons, hpk]
        exact List.mem_cons_self k _
    · constructor
      · rw [hval, keySum_cons, if_neg (fun he => hpk he.symm)]
      · exact List.mem_cons_of_mem _ hmem

lemma sortEntries_perm (l : List BinEntry) : (sortEntries l).Perm l :=
  List.perm_insertionSort entryLE l

lemma sortEntries_sorted (l : List BinEntry) :
    KeySorted ((sortEntries l).map Prod.fst) := by
  have h := List.sorted_insertionSort entryLE l
  unfold KeySorted
  rw [List.pairwise_map]
  exact h

lemma keySum_perm (k : Key) {l1 l2 : List BinEntry} (h : l1.Perm l2) :
    keySum k l1 = keySum k l2 :=
  List.Perm.sum_eq ((h.filter _).map _)

/-! ## The binning pipeline -/

/-- `pre_binned` (lines 275-283): the formatted `(d_i, d_e, area)`
lines of all computed triangles, sorted. -/
def preBinned (ts : List Tri) : List BinEntry := sortEntries (ts.map entryOf)

/-- `recorder_register` after the scan and `del [0]` (lines 285-305). -/
def recorderRegister (ts : List Tri) : List BinEntry := runGroups (preBinned ts)

/-- `integral_area`: accumulated at each flush (the heading flush adds
`0.0`), hence the sum of the recorded bin values. -/
def integralArea (ts : List Tri) : ℚ := ((recorderRegister ts).map Prod.snd).sum

/-- The normalization loop (lines 319-327):
`(value / integral_area) * 100.00` per recorded bin; dividing by an
integral of zero is a `ZeroDivisionError`, modelled `none` (an empty
register performs no division at all). -/
def normalizedRegister (ts : List Tri) : Option (List BinEntry) :=
  (recorderRegister ts).mapM (fun e =>
    if integralArea ts = 0 then none else some (e.1, e.2 / integralArea ts * 100))

/-- `assistance`: the axis `0.40, 0.41, …, 3.00` as hundredths
(`for i in range(40, 301)`). -/
def gridAxis : List ℤ := (List.range 261).map (fun i : ℕ => (40 : ℤ) + (i : ℤ))

/-- `itertools.product(assistance, assistance)`: all 261 × 261 keys. -/
def gridKeys : List Key := gridAxis ×ˢ gridAxis

/-- `blank_list`: a zero entry for every grid key. -/
def blankList : List BinEntry := gridKeys.map (fun k => (k, 0))

/-- `dat_file_generation` (lines 329-374): merge the normalized bins
with the blank grid, sort, and aggregate again; the resulting list of
`(key, value)` rows is what the `.dat` file records. -/
def datRegister (ts : List Tri) : Option (List BinEntry) :=
  (normalizedRegister ts).map (fun ns => runGroups (sortEntries (ns ++ blankList)))

lemma mem_gridKeys (k : Key) :
    k ∈ gridKeys ↔ (40 ≤ k.1 ∧ k.1 ≤ 300 ∧ 40 ≤ k.2 ∧ k.2 ≤ 300) := by
  obtain ⟨k1, k2⟩ := k
  unfold gridKeys gridAxis
  rw [List.mem_product]
  simp only [List.mem_map, List.mem_range]
  constructor
  · rintro ⟨⟨i, hi, rfl⟩, ⟨j, hj, rfl⟩⟩
    omega
  · rintro ⟨h1, h2, h3, h4⟩
    exact ⟨⟨(k1 - 40).toNat, by omega, by omega⟩, ⟨(k2 - 40).toNat, by omega, by omega⟩⟩

lemma gridAxis_nodup : gridAxis.Nodup := by
  unfold gridAxis
  exact List.Nodup.map (fun a b hab => by omega) (List.nodup_range 261)

lemma gridKeys_nodup : gridKeys.Nodup :=
  List.Nodup.product gridAxis_nodup gridAxis_nodup

lemma gridKeys_length : gridKeys.length = 68121 := by
  unfold gridKeys gridAxis
  rw [List.length_product]
  simp

lemma blankList_fst : blankList.map Prod.fst = gridKeys := by
  unfold blankList
  rw [List.map_map]
  have h : (Prod.fst ∘ fun k : Key => (k, (0:ℚ))) = id := rfl
  rw [h, List.map_id]

lemma blankList_sum : (blankList.map Prod.snd).sum = 0 := by
  have h : ∀ l : List Key, ((l.map (fun k => (k, (0:ℚ)))).map Prod.snd).sum = 0 := by
    intro l
    induction l with
    | nil => rfl
    | cons a t ih => simpa using ih
  exact h gridKeys

lemma length_eq_of_nodup_mem (l1 l2 : List Key) (h1 : l1.Nodup) (h2 : l2.Nodup)
    (hm : ∀ k, k ∈ l1 ↔ k ∈ l2) : l1.length = l2.length := by
  rw [← List.toFinset_card_of_nodup h1, ← List.toFinset_card_of_nodup h2]
  congr 1
  ext k
  rw [List.mem_toFinset, List.mem_toFinset]
  exact hm k

lemma mapM_norm {I : ℚ} (hI : I ≠ 0) (l : List BinEntry) :
    l.mapM (fun e => if I = 0 then none else some (e.1, e.2 / I * 100))
      = some (l.map (fun e => (e.1, e.2 / I * 100))) := by
  induction l with
  | nil => rfl
  | cons e rest ih =>
    rw [List.mapM_cons, if_neg hI, ih]
    rfl

lemma mapM_norm_zero {I : ℚ} (hI : I = 0) (l : List BinEntry) (hne : l ≠ []) :
    l.mapM (fun e => if I = 0 then none else some (e.1, e.2 / I * 100)) = none := by
  cases l with
  | nil => exact absurd rfl hne
  | cons e rest =>
    rw [List.mapM_cons, if_pos hI]
    rfl

lemma sum_map_norm (l : List BinEntry) (I : ℚ) :
    ((l.map (fun e => (e.1, e.2 / I * 100))).map Prod.snd).sum
      = (l.map Prod.snd).sum / I * 100 := by
  induction l with
  | nil => simp
  | cons e rest ih =>
    simp only [List.map_cons, List.sum_cons, ih]
    ring

lemma map_fst_norm (l : List BinEntry) (I : ℚ) :
    (l.map (fun e => (e.1, e.2 / I * 100))).map Prod.fst = l.map Prod.fst := by
  rw [List.map_map]
  rfl

/-- All facts about one run of the binning pipeline with a non-zero
integral area, shared by the claims about normalization, the grid and
their counterexamples. -/
lemma datRegister_facts (ts : List Tri) (hI : integralArea ts ≠ 0) :
    ∃ ds,
      normalizedRegister ts = some ((recorderRegister ts).map
        (fun e => (e.1, e.2 / integralArea ts * 100))) ∧
      datRegister ts = some ds ∧
      (∀ p ∈ (recorderRegister ts).map
          (fun e => (e.1, e.2 / integralArea ts * 100)),
        p.2 = keySum p.1 (ts.map entryOf) / integralArea ts * 100) ∧
      (∀ k : Key, k ∈ ((recorderRegister ts).map
          (fun e => (e.1, e.2 / integralArea ts * 100))).map Prod.fst
        ↔ k ∈ (ts.map entryOf).map Prod.fst) ∧
      (ds.map Prod.snd).sum = 100 ∧
      (ds.map Prod.fst).Nodup ∧
      (∀ k : Key, k ∈ ds.map Prod.fst ↔
        (k ∈ (ts.map entryOf).map Prod.fst ∨ k ∈ gridKeys)) := by
  have hnorm : normalizedRegister ts = some ((recorderRegister ts).map
      (fun e => (e.1, e.2 / integralArea ts * 100))) := by
    unfold normalizedRegister
    exact mapM_norm hI _
  refine ⟨runGroups (sortEntries ((recorderRegister ts).map
      (fun e => (e.1, e.2 / integralArea ts * 100)) ++ blankList)),
    hnorm, ?_, ?_, ?_, ?_, ?_, ?_⟩
  · unfold datRegister
    rw [hnorm]
    rfl
  · intro p hp
    obtain ⟨q, hq, rfl⟩ := List.mem_map.mp hp
    have hsorted : KeySorted ((preBinned ts).map Prod.fst) := sortEntries_sorted _
    have h := runGroups_val (preBinned ts) hsorted q hq
    show q.2 / integralArea ts * 100 = keySum q.1 (ts.map entryOf) / integralArea ts * 100
    have h2 : keySum q.1 (preBinned ts) = keySum q.1 (ts.map entryOf) :=
      keySum_perm q.1 (sortEntries_perm (ts.map entryOf))
    rw [h.1, h2]
  · intro k
    rw [map_fst_norm]
    have h1 : (recorderRegister ts).map Prod.fst
        = dedupAdj ((preBinned ts).map Prod.fst) := runGroups_fst _
    rw [h1, mem_dedupAdj]
    exact ((sortEntries_perm (ts.map entryOf)).map Prod.fst).mem_iff
  · rw [runGroups_sum]
    have hperm := (sortEntries_perm ((recorderRegister ts).map
      (fun e => (e.1, e.2 / integralArea ts * 100)) ++ blankList)).map Prod.snd
    rw [hperm.sum_eq, List.map_append, List.sum_append, blankList_sum, add_zero,
      sum_map_norm]
    have : ((recorderRegister ts).map Prod.snd).sum = integralArea ts := rfl
    rw [this, div_self hI]
    norm_num
  · rw [runGroups_fst]
    exact dedupAdj_nodup _ (sortEntries_sorted _)
  · intro k
    rw [runGroups_fst, mem_dedupAdj,
      ((sortEntries_perm _).map Prod.fst).mem_iff, List.map_append,
      List.mem_append, map_fst_norm, blankList_fst]
    have h1 : (recorderRegister ts).map Prod.fst
        = dedupAdj ((preBinned ts).map Prod.fst) := runGroups_fst _
    rw [h1, mem_dedupAdj]
    have h2 : k ∈ (preBinned ts).map Prod.fst ↔ k ∈ (ts.map entryOf).map Prod.fst :=
      ((sortEntries_perm (ts.map entryOf)).map Prod.fst).mem_iff
    rw [h2]

/-- C1.  With positive integral area: the normalization assigns each
populated bin `(accumulated raw area / integral area) × 100`; the
populated bins are exactly the quantized triangle keys; the values of
the produced (densified) fingerprint sum to exactly `100` (hence
within any tolerance); and — when every quantized key lies on the
`[0.40, 3.00]` grid, the precondition of the claimed 68 121-entry
shape — the fingerprint has exactly `68121` entries. -/
theorem binner_normalizes_and_sums_to_100 (ts : List Tri)
    (hI : 0 < integralArea ts) :
    ∃ ns ds, normalizedRegister ts = some ns ∧ datRegister ts = some ds ∧
      (∀ p ∈ ns, p.2 = keySum p.1 (ts.map entryOf) / integralArea ts * 100) ∧
      (∀ k : Key, k ∈ ns.map Prod.fst ↔ k ∈ (ts.map entryOf).map Prod.fst) ∧
      (ds.map Prod.snd).sum = 100 ∧
      ((∀ t ∈ ts, 40 ≤ q2 t.di ∧ q2 t.di ≤ 300 ∧ 40 ≤ q2 t.de ∧ q2 t.de ≤ 300) →
        ds.length = 68121) := by
  obtain ⟨ds, hnorm, hdat, hval, hkeys, hsum, hnodup, hdkeys⟩ :=
    datRegister_facts ts (ne_of_gt hI)
  refine ⟨_, ds, hnorm, hdat, hval, hkeys, hsum, ?_⟩
  intro hgrid
  have hlen : ds.length = (ds.map Prod.fst).length := (List.length_map _ _).symm
  rw [hlen, length_eq_of_nodup_mem (ds.map Prod.fst) gridKeys hnodup gridKeys_nodup
    ?_, gridKeys_length]
  intro k
  rw [hdkeys k]
  constructor
  · rintro (hk | hk)
    · obtain ⟨e, he, rfl⟩ := List.mem_map.mp hk
      obtain ⟨t, ht, rfl⟩ := List.mem_map.mp he
      have hb := hgrid t ht
      rw [mem_gridKeys]
      exact ⟨hb.1, hb.2.1, hb.2.2.1, hb.2.2.2⟩
    · exact hk
  · intro hk
    exact Or.inr hk

lemma recorder_singleton (t : Tri) :
    recorderRegister [t] = [((q2 t.di, q2 t.de), t.area)] := rfl

lemma integralArea_singleton (t : Tri) : integralArea [t] = t.area := by
  unfold integralArea
  rw [recorder_singleton]
  simp

lemma q2_one : q2 1 = 100 := by
  unfold q2
  rw [show (1 : ℚ) * 100 = ((100 : ℤ) : ℚ) by norm_num, round_intCast]

lemma q2_sevenhalf : q2 (7/2) = 350 := by
  unfold q2
  rw [show (7 : ℚ)/2 * 100 = ((350 : ℤ) : ℚ) by norm_num, round_intCast]

/-- Witness for `binner_normalizes_and_sums_to_100`: a single unit
triangle at `d_i = d_e = 1.00`. -/
theorem binner_normalizes_and_sums_to_100_witness :
    0 < integralArea [⟨1, 1, 1⟩] ∧
    (∃ ns ds, normalizedRegister [⟨1, 1, 1⟩] = some ns ∧
      datRegister [⟨1, 1, 1⟩] = some ds ∧
      (∀ p ∈ ns, p.2 = keySum p.1 ([(⟨1, 1, 1⟩ : Tri)].map entryOf)
        / integralArea [⟨1, 1, 1⟩] * 100) ∧
      (∀ k : Key, k ∈ ns.map Prod.fst ↔
        k ∈ ([(⟨1, 1, 1⟩ : Tri)].map entryOf).map Prod.fst) ∧
      (ds.map Prod.snd).sum = 100 ∧
      ((∀ t ∈ [(⟨1, 1, 1⟩ : Tri)],
          40 ≤ q2 t.di ∧ q2 t.di ≤ 300 ∧ 40 ≤ q2 t.de ∧ q2 t.de ≤ 300) →
        ds.length = 68121)) := by
  have hI : 0 < integralArea [⟨1, 1, 1⟩] := by
    rw [integralArea_singleton]
    norm_num
  exact ⟨hI, binner_normalizes_and_sums_to_100 _ hI⟩

/-- C2 counterexample.  A triangle with average `d_i = 3.50` (outside
the grid): its bin key `(3.50, 1.00)` is written to the output, which
therefore has 68 122 entries — the keys are not clamped to the
`[0.40, 3.00]` grid. -/
theorem dat_grid_counterexample :
    ∃ ds, datRegister [⟨1, 7/2, 1⟩] = some ds ∧
      ((350 : ℤ), (100 : ℤ)) ∈ ds.map Prod.fst ∧
      ((350 : ℤ), (100 : ℤ)) ∉ gridKeys ∧
      ds.length = 68122 := by
  have hI : integralArea [⟨1, 7/2, 1⟩] ≠ 0 := by
    rw [integralArea_singleton]
    norm_num
  obtain ⟨ds, hnorm, hdat, hval, hkeys, hsum, hnodup, hdkeys⟩ :=
    datRegister_facts _ hI
  have hnotgrid : ((350 : ℤ), (100 : ℤ)) ∉ gridKeys := by
    rw [mem_gridKeys]
    intro h
    omega
  refine ⟨ds, hdat, ?_, hnotgrid, ?_⟩
  · rw [hdkeys]
    left
    simp [entryOf, q2_sevenhalf, q2_one]
  · have hlen : ds.length = (ds.map Prod.fst).length := (List.length_map _ _).symm
    rw [hlen, length_eq_of_nodup_mem (ds.map Prod.fst)
      (((350 : ℤ), (100 : ℤ)) :: gridKeys) hnodup
      (List.nodup_cons.mpr ⟨hnotgrid, gridKeys_nodup⟩) ?_]
    · rw [List.length_cons, gridKeys_length]
    intro k
    rw [hdkeys k, List.mem_cons]
    constructor
    · rintro (hk | hk)
      · left
        have : k = ((350 : ℤ), (100 : ℤ)) := by
          simpa [entryOf, q2_sevenhalf, q2_one] using hk
        exact this
      · exact Or.inr hk
    · rintro (rfl | hk)
      · left
        simp [entryOf, q2_sevenhalf, q2_one]
      · exact Or.inr hk

/-- C2 amended.  Provided every quantized triangle key lies on the
grid (the code never clamps keys), the produced fingerprint has
exactly 68 121 entries and all its keys lie on the closed grid
`[0.40, 3.00]` in hundredth steps. -/
theorem dat_grid_amended (ts : List Tri) (hI : integralArea ts ≠ 0)
    (hgrid : ∀ t ∈ ts, 40 ≤ q2 t.di ∧ q2 t.di ≤ 300 ∧ 40 ≤ q2 t.de ∧ q2 t.de ≤ 300) :
    ∃ ds, datRegister ts = some ds ∧ ds.length = 68121 ∧
      ∀ k ∈ ds.map Prod.fst, k ∈ gridKeys := by
  obtain ⟨ds, hnorm, hdat, hval, hkeys, hsum, hnodup, hdkeys⟩ :=
    datRegister_facts ts hI
  have hmem : ∀ k, k ∈ ds.map Prod.fst ↔ k ∈ gridKeys := by
    intro k
    rw [hdkeys k]
    constructor
    · rintro (hk | hk)
      · obtain ⟨e, he, rfl⟩ := List.mem_map.mp hk
        obtain ⟨t, ht, rfl⟩ := List.mem_map.mp he
        have hb := hgrid t ht
        rw [mem_gridKeys]
        exact ⟨hb.1, hb.2.1, hb.2.2.1, hb.2.2.2⟩
      · exact hk
    · intro hk
      exact Or.inr hk
  refine ⟨ds, hdat, ?_, fun k hk => (hmem k).mp hk⟩
  have hlen : ds.length = (ds.map Prod.fst).length := (List.length_map _ _).symm
  rw [hlen, length_eq_of_nodup_mem (ds.map Prod.fst) gridKeys hnodup gridKeys_nodup
    hmem, gridKeys_length]

/-- Witness for `dat_grid_amended` with a single in-grid triangle. -/
theorem dat_grid_amended_witness :
    integralArea [⟨1, 1, 1⟩] ≠ 0 ∧
    (∀ t ∈ [(⟨1, 1, 1⟩ : Tri)],
      40 ≤ q2 t.di ∧ q2 t.di ≤ 300 ∧ 40 ≤ q2 t.de ∧ q2 t.de ≤ 300) ∧
    ∃ ds, datRegister [⟨1, 1, 1⟩] = some ds ∧ ds.length = 68121 ∧
      ∀ k ∈ ds.map Prod.fst, k ∈ gridKeys := by
  have hI : integralArea [⟨1, 1, 1⟩] ≠ 0 := by
    rw [integralArea_singleton]
    norm_num
  have hgrid : ∀ t ∈ [(⟨1, 1, 1⟩ : Tri)],
      40 ≤ q2 t.di ∧ q2 t.di ≤ 300 ∧ 40 ≤ q2 t.de ∧ q2 t.de ≤ 300 := by
    intro t ht
    rw [List.mem_singleton] at ht
    subst ht
    rw [show ((⟨1, 1, 1⟩ : Tri)).di = 1 from rfl, show ((⟨1, 1, 1⟩ : Tri)).de = 1 from rfl,
      q2_one]
    norm_num
  exact ⟨hI, hgrid, dat_grid_amended _ hI hgrid⟩

/-- C7 counterexample.  A mesh with no computed triangles has integral
area `0`, yet normalization does not fail (no division is attempted on
the empty register) and an (all-zero) fingerprint is produced. -/
theorem empty_surface_counterexample :
    integralArea [] = 0 ∧
    datRegister [] = some (runGroups (sortEntries ([] ++ blankList))) :=
  ⟨rfl, rfl⟩

/-- C7 amended.  Normalization fails (a `ZeroDivisionError`, `none`)
iff the integral area is zero *and* at least one bin was recorded;
when it fails, no fingerprint is produced. -/
theorem normalization_zero_division (ts : List Tri) :
    (normalizedRegister ts = none ↔
      (integralArea ts = 0 ∧ recorderRegister ts ≠ [])) ∧
    (normalizedRegister ts = none → datRegister ts = none) := by
  constructor
  · constructor
    · intro h
      constructor
      · by_contra h0
        unfold normalizedRegister at h
        rw [mapM_norm h0] at h
        exact Option.noConfusion h
      · intro hnil
        unfold normalizedRegister at h
        rw [hnil] at h
        exact Option.noConfusion h
    · rintro ⟨h0, hne⟩
      unfold normalizedRegister
      exact mapM_norm_zero h0 _ hne
  · intro h
    unfold datRegister
    rw [h]
    rfl

/-- Witness for `normalization_zero_division`: one zero-area triangle
(three coincident points pass the Kahan test with area `0`), so a bin
is recorded, the integral is zero, and the script dies in the
division. -/
theorem normalization_zero_division_witness :
    normalizedRegister [⟨1, 1, 0⟩] = none ∧ datRegister [⟨1, 1, 0⟩] = none := by
  have h0 : integralArea [⟨1, 1, 0⟩] = 0 := by
    rw [integralArea_singleton]
  have hne : recorderRegister [⟨1, 1, 0⟩] ≠ [] := by
    rw [recorder_singleton]
    simp
  have h := (normalization_zero_division [⟨1, 1, 0⟩]).1.mpr ⟨h0, hne⟩
  exact ⟨h, (normalization_zero_division [⟨1, 1, 0⟩]).2 h⟩

end Hirshfeld
